import Mathlib

/-!
Verification of the ClassInitCounter tracked-value domain and the parallel
work queue of the redex repository.

The definitions below are a shallow embedding of the C++ sources:

* `src/service/class-init/ClassInitCounter.h` — the tracked-value lattice
  (`ObjectUses`, `MergedUses`), `TrackedComparer`/`TrackedHasher`, and the
  `RegisterSet` register file.  Pointer identities (`IRInstruction*`,
  `DexType*`) are modelled as `Nat`; a `std::shared_ptr<TrackedUses>` is an
  `Option TrackedUses` (`none` is the null pointer); an
  `std::unordered_set` keyed by `TrackedComparer` is a `List` inserted into
  only when no comparer-equal element is present; the
  `std::unordered_map<reg_t, shared_ptr>` of `RegisterSet` is a function
  `Nat → Option (Option TrackedUses)` where the outer `Option` is map-key
  presence and the inner one is shared-pointer nullness.
  The usage sub-records (`FieldWriteRegs`, `FieldReads`, `MethodCalls`,
  `Escapes`) carried by every `TrackedUses` are omitted: none of the
  operations embedded here (`same_instr`, `same_instrs`, `consistent_with`,
  `TrackedComparer`, the `RegisterSet` operations, the merged-value
  constructors) reads or writes them.

* the work-queue header (`src/unnamed/part_002`) — `WorkerState`,
  `WorkQueue`, `add_item`, `create_permutation`, `consume` and `run_all`.

Method bodies that live in `ClassInitCounter.cpp` — a file the repository
snapshot does not contain — are modelled from the specification text and
are marked `Modelled from the spec:` in their doc comments.
-/

namespace cic

/-- `FlowStatus` from ClassInitCounter.h: whether a fact holds on all
control-flow paths or only conditionally. -/
inductive FlowStatus where
  | Conditional
  | AllPaths
deriving DecidableEq

/-- The `Tracked` enum from ClassInitCounter.h, differentiating the two
concrete subclasses of `TrackedUses` without runtime casts. -/
inductive Tracked where
  | Object
  | Merged
deriving DecidableEq

/-- `ObjectUses` from ClassInitCounter.h: a tracked value created by the
unique construction instruction `m_id` of class `m_class_used`, with its
`created_flow` flag.  Usage sub-records are omitted (see the file header). -/
structure ObjectUses where
  m_id : Nat
  m_class_used : Nat
  created_flow : FlowStatus
deriving DecidableEq

/-- `MergedUses` from ClassInitCounter.h: a tracked value created by one of
the set `m_instrs` of construction instructions, whose types form
`m_classes`; `m_includes_nullable` records whether null was also observed. -/
structure MergedUses where
  m_instrs : Finset Nat
  m_classes : Finset Nat
  m_includes_nullable : Bool
deriving DecidableEq

/-- The `TrackedUses` hierarchy (abstract base with two concrete
subclasses) as a sum. -/
inductive TrackedUses where
  | obj (o : ObjectUses)
  | merged (m : MergedUses)
deriving DecidableEq

/-- The `m_tracked_kind` field of `TrackedUses`, fixed by the concrete
subclass. -/
def TrackedUses.m_tracked_kind : TrackedUses → Tracked
  | .obj _ => .Object
  | .merged _ => .Merged

/-- `ObjectUses::same_instr` from ClassInitCounter.h:
`m_id == other.m_id`. -/
def ObjectUses.same_instr (o other : ObjectUses) : Bool :=
  o.m_id == other.m_id

/-- Modelled from the spec: the body of `MergedUses::same_instrs` lives in
`ClassInitCounter.cpp`, which is absent from the snapshot.  Per the spec,
two `MergedUses` agree exactly when their instruction sets `I` are equal. -/
def MergedUses.same_instrs (m other : MergedUses) : Bool :=
  decide (m.m_instrs = other.m_instrs)

/-- `MergedUses::set_is_nullable` from ClassInitCounter.h. -/
def MergedUses.set_is_nullable (m : MergedUses) : MergedUses :=
  { m with m_includes_nullable := true }

/-- Modelled from the spec: the body of `ObjectUses::consistent_with` lives
in the absent `ClassInitCounter.cpp`.  Per the spec (§4.A), an
`ObjectUses(i)` is consistent with `other` iff `other` is the same
`ObjectUses(i)` or a `MergedUses` whose instruction set contains `i`. -/
def ObjectUses.consistent_with (o : ObjectUses) : TrackedUses → Bool
  | .obj other => o.same_instr other
  | .merged other => decide (o.m_id ∈ other.m_instrs)

/-- Modelled from the spec: the body of `MergedUses::consistent_with` lives
in the absent `ClassInitCounter.cpp`.  Per the spec (§4.A), a
`MergedUses(I)` is consistent with `other` iff `other` is a `MergedUses`
with the same instruction set whose nullable flag is at least as permissive;
for an `ObjectUses` argument the result is false (the reverse direction of
`ObjectUses.consistent_with` does not hold). -/
def MergedUses.consistent_with (m : MergedUses) : TrackedUses → Bool
  | .obj _ => false
  | .merged other => m.same_instrs other && (!m.m_includes_nullable || other.m_includes_nullable)

/-- Virtual dispatch of `TrackedUses::consistent_with` on the dynamic kind
of the receiver. -/
def TrackedUses.consistent_with : TrackedUses → TrackedUses → Bool
  | .obj o, other => o.consistent_with other
  | .merged m, other => m.consistent_with other

/-- `TrackedComparer::operator()` from ClassInitCounter.h, on nullable
shared pointers: two null pointers are equal, a null and a non-null pointer
are not, values of different `m_tracked_kind` are not, two `MergedUses`
compare by `same_instrs`, and two `ObjectUses` compare by `same_instr`. -/
def trackedComparer : Option TrackedUses → Option TrackedUses → Bool
  | none, none => true
  | none, some _ => false
  | some _, none => false
  | some (.merged lm), some (.merged rm) => lm.same_instrs rm
  | some (.obj lo), some (.obj ro) => lo.same_instr ro
  | some _, some _ => false

/-- Insertion into a `UsedSet` (an `std::unordered_set` of shared pointers
keyed by `TrackedComparer`): a no-op when a comparer-equal element is
already present. -/
def usedSetInsert (s : List (Option TrackedUses)) (v : Option TrackedUses) :
    List (Option TrackedUses) :=
  if s.any (fun u => trackedComparer u v) then s else v :: s

/-- Membership in a `UsedSet`, decided by `TrackedComparer` as in
`std::unordered_set`. -/
def memUsedSet (s : List (Option TrackedUses)) (v : Option TrackedUses) : Bool :=
  s.any (fun u => trackedComparer u v)

/-- `RegisterSet` from ClassInitCounter.h: the per-program-point register
file `m_registers` plus the set `m_all_uses` of all tracked values ever
inserted. -/
structure RegisterSet where
  m_all_uses : List (Option TrackedUses)
  m_registers : Nat → Option (Option TrackedUses)

/-- The default-constructed `RegisterSet`: both containers empty. -/
def RegisterSet.empty : RegisterSet :=
  { m_all_uses := [], m_registers := fun _ => none }

/-- `RegisterSet::insert` from ClassInitCounter.h: remember `uses` in
`m_all_uses` and store it into register `i`. -/
def RegisterSet.insert (R : RegisterSet) (i : Nat) (uses : Option TrackedUses) :
    RegisterSet :=
  { m_all_uses := usedSetInsert R.m_all_uses uses,
    m_registers := fun j => if j = i then some uses else R.m_registers j }

/-- `RegisterSet::clear` from ClassInitCounter.h: when register `i` is a
present map key, overwrite it with the null shared pointer; `m_all_uses` is
untouched. -/
def RegisterSet.clear (R : RegisterSet) (i : Nat) : RegisterSet :=
  if (R.m_registers i).isSome then
    { R with m_registers := fun j => if j = i then some none else R.m_registers j }
  else R

/-- `RegisterSet::get` from ClassInitCounter.h: the value of register `i`,
or the null shared pointer when `i` is not a map key. -/
def RegisterSet.get (R : RegisterSet) (i : Nat) : Option TrackedUses :=
  match R.m_registers i with
  | none => none
  | some v => v

/-- `RegisterSet::is_empty` from ClassInitCounter.h: register `i` is bottom
when it is not a map key or holds the null shared pointer. -/
def RegisterSet.is_empty (R : RegisterSet) (i : Nat) : Bool :=
  match R.m_registers i with
  | none => true
  | some v => v.isNone

/-- `TrackedComparer` equates every tracked value (and the null pointer)
with itself. -/
lemma trackedComparer_self (v : Option TrackedUses) : trackedComparer v v = true := by
  match v with
  | none => rfl
  | some (.obj o) => simp [trackedComparer, ObjectUses.same_instr]
  | some (.merged m) => simp [trackedComparer, MergedUses.same_instrs]

/-- Inserting `v` into a used set makes `v` a member. -/
lemma memUsedSet_usedSetInsert (s : List (Option TrackedUses)) (v : Option TrackedUses) :
    memUsedSet (usedSetInsert s v) v = true := by
  by_cases h : s.any (fun u => trackedComparer u v) = true
  · simp [usedSetInsert, memUsedSet, h]
  · simp [usedSetInsert, memUsedSet, h, trackedComparer_self]

/-- `RegisterSet::clear` leaves `m_all_uses` untouched. -/
lemma RegisterSet.clear_m_all_uses (R : RegisterSet) (i : Nat) :
    (R.clear i).m_all_uses = R.m_all_uses := by
  unfold RegisterSet.clear
  split <;> rfl

/-- Modelled from the spec: the two-argument constructor
`MergedUses(const ObjectUses&, const ObjectUses&)` (body in the absent
`ClassInitCounter.cpp`) promotes two `ObjectUses` into a merged value whose
instruction set is the pair of their creating instructions and whose class
set is the pair of their classes. -/
def MergedUses.ofTwo (a b : ObjectUses) : MergedUses :=
  { m_instrs := {a.m_id, b.m_id},
    m_classes := {a.m_class_used, b.m_class_used},
    m_includes_nullable := false }

/-- Join of `created_flow` flags: `Conditional` absorbs `AllPaths`. -/
def flowJoin : FlowStatus → FlowStatus → FlowStatus
  | .AllPaths, .AllPaths => .AllPaths
  | _, _ => .Conditional

/-- Modelled from the spec (§4.A): `combine_paths` on two `ObjectUses`
keeps an `ObjectUses` (joining the `created_flow` flags) when both were
created by the same instruction, and promotes to a `MergedUses` otherwise.
The body lives in the absent `ClassInitCounter.cpp`. -/
def objectCombinePaths (a b : ObjectUses) : TrackedUses :=
  if a.m_id = b.m_id then
    .obj { a with created_flow := flowJoin a.created_flow b.created_flow }
  else
    .merged (MergedUses.ofTwo a b)

/-- Modelled from the spec (§4.A): combining a `MergedUses` with an
`ObjectUses` adds the instruction to `I` and its type to `C`. -/
def MergedUses.extendWith (m : MergedUses) (o : ObjectUses) : MergedUses :=
  { m_instrs := insert o.m_id m.m_instrs,
    m_classes := insert o.m_class_used m.m_classes,
    m_includes_nullable := m.m_includes_nullable }

/-- Modelled from the spec (§4.A): combining two `MergedUses` unions the
sets and ORs the nullable flags. -/
def MergedUses.unionWith (m other : MergedUses) : MergedUses :=
  { m_instrs := m.m_instrs ∪ other.m_instrs,
    m_classes := m.m_classes ∪ other.m_classes,
    m_includes_nullable := m.m_includes_nullable || other.m_includes_nullable }

/-- An `ObjectUses` is well formed with respect to the program's
instruction typing `typ` when its recorded class is the type of its
creating instruction (in the source both fields are copied from the same
construction instruction). -/
def ObjectUses.wf (typ : Nat → Nat) (o : ObjectUses) : Prop :=
  o.m_class_used = typ o.m_id

/-- Modelled from the spec (§4.A and §4.C): the merged values that can
reach the promoted-merged store.  They arise by promoting two `ObjectUses`
with distinct construction instructions, extending a stored merged value
by an `ObjectUses`, unioning two stored merged values, or marking a stored
merged value nullable. -/
inductive InMergedStore (typ : Nat → Nat) : MergedUses → Prop
  | promote (a b : ObjectUses) :
      a.wf typ → b.wf typ → a.m_id ≠ b.m_id → InMergedStore typ (MergedUses.ofTwo a b)
  | extend (m : MergedUses) (o : ObjectUses) :
      InMergedStore typ m → o.wf typ → InMergedStore typ (m.extendWith o)
  | union (m other : MergedUses) :
      InMergedStore typ m → InMergedStore typ other → InMergedStore typ (m.unionWith other)
  | nullable (m : MergedUses) :
      InMergedStore typ m → InMergedStore typ m.set_is_nullable

/-- Claim C1: the consistent_with relation on tracked values is reflexive
but not symmetric.  Every `ObjectUses` is consistent with itself; for every
`ObjectUses` `o` whose construction instruction lies in the instruction set
of a `MergedUses` `m`, `o.consistent_with(m)` is true while
`m.consistent_with(o)` is false. -/
theorem consistent_with_refl_not_symm :
    (∀ o : ObjectUses,
      (TrackedUses.obj o).consistent_with (TrackedUses.obj o) = true) ∧
    (∀ (o : ObjectUses) (m : MergedUses), o.m_id ∈ m.m_instrs →
      (TrackedUses.obj o).consistent_with (TrackedUses.merged m) = true ∧
      (TrackedUses.merged m).consistent_with (TrackedUses.obj o) = false) := by
  constructor
  · intro o
    simp [TrackedUses.consistent_with, ObjectUses.consistent_with, ObjectUses.same_instr]
  · intro o m h
    exact ⟨by simp [TrackedUses.consistent_with, ObjectUses.consistent_with, h], rfl⟩

/-- Witness for C1 at a concrete object and merged value. -/
theorem consistent_with_refl_not_symm_witness :
    (TrackedUses.obj ⟨1, 2, .AllPaths⟩).consistent_with
      (TrackedUses.merged ⟨{1, 4}, {2}, false⟩) = true ∧
    (TrackedUses.merged ⟨{1, 4}, {2}, false⟩).consistent_with
      (TrackedUses.obj ⟨1, 2, .AllPaths⟩) = false :=
  consistent_with_refl_not_symm.2 ⟨1, 2, .AllPaths⟩ ⟨{1, 4}, {2}, false⟩ (by decide)

/-- Claim C2: after `R.insert(i, v); R.clear(i)` the value `v` is still a
member (by `TrackedComparer`) of the register file's all-seen set
`m_all_uses`, and clearing a register never removes any value from the
all-seen set. -/
theorem clear_preserves_all_uses :
    (∀ (R : RegisterSet) (i : Nat) (v : Option TrackedUses),
      memUsedSet ((R.insert i v).clear i).m_all_uses v = true) ∧
    (∀ (R : RegisterSet) (i : Nat) (v : Option TrackedUses),
      memUsedSet R.m_all_uses v = true →
        memUsedSet (R.clear i).m_all_uses v = true) := by
  constructor
  · intro R i v
    rw [RegisterSet.clear_m_all_uses]
    exact memUsedSet_usedSetInsert R.m_all_uses v
  · intro R i v h
    rw [RegisterSet.clear_m_all_uses]
    exact h

/-- Witness for C2 at a concrete register file and tracked value. -/
theorem clear_preserves_all_uses_witness :
    memUsedSet
      ((RegisterSet.empty.insert 0 (some (.obj ⟨7, 3, .AllPaths⟩))).clear 0).m_all_uses
      (some (.obj ⟨7, 3, .AllPaths⟩)) = true :=
  clear_preserves_all_uses.2
    (RegisterSet.empty.insert 0 (some (.obj ⟨7, 3, .AllPaths⟩))) 0
    (some (.obj ⟨7, 3, .AllPaths⟩)) (by decide)

/-- Claim C3: every merged value reachable in the promoted-merged store has
an instruction set of size at least two and a class set contained in the
types of its instructions, and combining two `ObjectUses` created by the
same instruction stays an `ObjectUses` instead of forming a singleton
`MergedUses`. -/
theorem merged_store_invariant :
    (∀ (typ : Nat → Nat) (m : MergedUses), InMergedStore typ m →
      2 ≤ m.m_instrs.card ∧ m.m_classes ⊆ m.m_instrs.image typ) ∧
    (∀ a b : ObjectUses, a.m_id = b.m_id →
      ∃ o : ObjectUses, objectCombinePaths a b = .obj o) := by
  constructor
  · intro typ m h
    induction h with
    | promote a b ha hb hne =>
      refine ⟨?_, ?_⟩
      · rw [show (MergedUses.ofTwo a b).m_instrs = {a.m_id, b.m_id} from rfl,
          Finset.card_pair hne]
      · intro x hx
        simp only [MergedUses.ofTwo, Finset.mem_insert, Finset.mem_singleton] at hx
        simp only [MergedUses.ofTwo, Finset.mem_image, Finset.mem_insert,
          Finset.mem_singleton]
        rcases hx with rfl | rfl
        · exact ⟨a.m_id, Or.inl rfl, ha.symm⟩
        · exact ⟨b.m_id, Or.inr rfl, hb.symm⟩
    | extend m o hm ho ih =>
      refine ⟨le_trans ih.1 (Finset.card_le_card (Finset.subset_insert _ _)), ?_⟩
      intro x hx
      simp only [MergedUses.extendWith, Finset.mem_insert] at hx
      rcases hx with rfl | hx
      · rw [ho]
        exact Finset.mem_image_of_mem typ (Finset.mem_insert_self _ _)
      · exact Finset.image_subset_image (Finset.subset_insert _ _) (ih.2 hx)
    | union m other hm hother ih1 ih2 =>
      refine ⟨le_trans ih1.1 (Finset.card_le_card Finset.subset_union_left), ?_⟩
      rw [show (m.unionWith other).m_classes = m.m_classes ∪ other.m_classes from rfl,
        show (m.unionWith other).m_instrs = m.m_instrs ∪ other.m_instrs from rfl,
        Finset.image_union]
      exact Finset.union_subset
        (ih1.2.trans Finset.subset_union_left)
        (ih2.2.trans Finset.subset_union_right)
    | nullable m hm ih =>
      simpa [MergedUses.set_is_nullable] using ih
  · intro a b h
    exact ⟨{ a with created_flow := flowJoin a.created_flow b.created_flow },
      by simp [objectCombinePaths, h]⟩

/-- Witness for C3 at a concrete promoted pair and a collapsing pair. -/
theorem merged_store_invariant_witness :
    (2 ≤ (MergedUses.ofTwo ⟨1, 1, .AllPaths⟩ ⟨2, 2, .AllPaths⟩).m_instrs.card ∧
      (MergedUses.ofTwo ⟨1, 1, .AllPaths⟩ ⟨2, 2, .AllPaths⟩).m_classes ⊆
        (MergedUses.ofTwo ⟨1, 1, .AllPaths⟩ ⟨2, 2, .AllPaths⟩).m_instrs.image
          (fun n => n)) ∧
    (∃ o : ObjectUses, objectCombinePaths ⟨1, 1, .AllPaths⟩ ⟨1, 3, .AllPaths⟩ = .obj o) :=
  ⟨merged_store_invariant.1 (fun n => n) _
      (InMergedStore.promote _ _ rfl rfl (by decide)),
   merged_store_invariant.2 _ _ rfl⟩

/-- Claim C9: `TrackedComparer` equality is by variant and construction
site: values of different variants are never equal, two `ObjectUses` are
equal iff their creating instruction identities coincide, and two
`MergedUses` are equal iff their instruction sets are equal (classes and
nullable flags play no role). -/
theorem trackedComparer_by_variant_and_sites :
    (∀ l r : TrackedUses, l.m_tracked_kind ≠ r.m_tracked_kind →
      trackedComparer (some l) (some r) = false) ∧
    (∀ o other : ObjectUses,
      trackedComparer (some (.obj o)) (some (.obj other)) = true ↔
        o.m_id = other.m_id) ∧
    (∀ m other : MergedUses,
      trackedComparer (some (.merged m)) (some (.merged other)) = true ↔
        m.m_instrs = other.m_instrs) := by
  refine ⟨?_, ?_, ?_⟩
  · intro l r h
    cases l <;> cases r <;>
      first
        | rfl
        | exact absurd rfl h
  · intro o other
    simp [trackedComparer, ObjectUses.same_instr]
  · intro m other
    simp [trackedComparer, MergedUses.same_instrs]

/-- Witness for C9 at concrete values of different variants. -/
theorem trackedComparer_by_variant_and_sites_witness :
    trackedComparer (some (.obj ⟨1, 2, .AllPaths⟩))
      (some (.merged ⟨{1}, {2}, false⟩)) = false :=
  trackedComparer_by_variant_and_sites.1 _ _ (by decide)

/-- Claim C10: after `R.clear(i)` register `i` reads as bottom and is
empty, all other registers and the all-seen set are unchanged, and a
register that was never inserted also reads as bottom and is empty. -/
theorem clear_frame_and_bottom :
    ∀ (R : RegisterSet) (i : Nat),
      (R.clear i).get i = none ∧
      (R.clear i).is_empty i = true ∧
      (R.clear i).m_all_uses = R.m_all_uses ∧
      (∀ j, j ≠ i → (R.clear i).get j = R.get j) ∧
      (R.m_registers i = none → R.get i = none ∧ R.is_empty i = true) := by
  intro R i
  refine ⟨?_, ?_, RegisterSet.clear_m_all_uses R i, ?_, ?_⟩
  · cases hm : R.m_registers i with
    | none => simp [RegisterSet.clear, RegisterSet.get, hm]
    | some v => simp [RegisterSet.clear, RegisterSet.get, hm]
  · cases hm : R.m_registers i with
    | none => simp [RegisterSet.clear, RegisterSet.is_empty, hm]
    | some v => simp [RegisterSet.clear, RegisterSet.is_empty, hm]
  · intro j hj
    cases hm : R.m_registers i with
    | none => simp [RegisterSet.clear, RegisterSet.get, hm]
    | some v => simp [RegisterSet.clear, RegisterSet.get, hm, hj]
  · intro h
    simp [RegisterSet.get, RegisterSet.is_empty, h]

/-- Witness for C10 at a concrete register file. -/
theorem clear_frame_and_bottom_witness :
    ((RegisterSet.empty.insert 0 (some (.obj ⟨7, 3, .AllPaths⟩))).clear 0).get 1 =
      (RegisterSet.empty.insert 0 (some (.obj ⟨7, 3, .AllPaths⟩))).get 1 ∧
    (RegisterSet.empty.get 5 = none ∧ RegisterSet.empty.is_empty 5 = true) :=
  ⟨(clear_frame_and_bottom
      (RegisterSet.empty.insert 0 (some (.obj ⟨7, 3, .AllPaths⟩))) 0).2.2.2.1 1
      (by decide),
   (clear_frame_and_bottom RegisterSet.empty 5).2.2.2.2 rfl⟩

end cic

namespace workqueue

/-- `WorkerState` from the work-queue header: a worker's index, its FIFO of
input items (front of the list is the front of the `std::queue`), and its
caller-initialized per-worker data.  The `m_result` accumulator is
default-constructed and overwritten with the initial output by `run_all`
before any read, so it is modelled by the explicit accumulator threaded
through `worker_loop` and `run_all` below. -/
structure WorkerState (I : Type) (D : Type) where
  m_id : Nat
  m_queue : List I
  m_data : D
deriving DecidableEq

/-- `WorkQueue` from the work-queue header: the mapper and reducer (the
mapper is modelled as a pure function of the input, since the claims below
concern reducers over per-task mapper outputs), the thread count, the
round-robin insertion cursor and the per-worker states. -/
structure WorkQueue (I : Type) (D : Type) (O : Type) where
  m_mapper : I → O
  m_reducer : O → O → O
  m_num_threads : Nat
  m_insert_idx : Nat
  m_states : List (WorkerState I D)

/-- The state built by the `WorkQueue` constructor body: `num_threads`
worker states, the `i`-th created as `WorkerState(i, data_initializer(i))`
with an empty queue. -/
def freshWQ {I D O : Type} (mapper : I → O) (reducer : O → O → O)
    (data_initializer : Nat → D) (num_threads : Nat) : WorkQueue I D O :=
  { m_mapper := mapper, m_reducer := reducer,
    m_num_threads := num_threads, m_insert_idx := 0,
    m_states := (List.range num_threads).map fun i => ⟨i, [], data_initializer i⟩ }

/-- The `WorkQueue` constructor: `always_assert(num_threads >= 1)` fails
fast (modelled as `none`), otherwise the worker states are created. -/
def workQueueCtor {I D O : Type} (mapper : I → O) (reducer : O → O → O)
    (data_initializer : Nat → D) (num_threads : Nat) : Option (WorkQueue I D O) :=
  if num_threads < 1 then none
  else some (freshWQ mapper reducer data_initializer num_threads)

/-- `m_states[idx]->m_queue.push(task)`: push `task` onto the back of the
queue of the worker at position `idx`. -/
def modifyQueue {I D : Type} : List (WorkerState I D) → Nat → I → List (WorkerState I D)
  | [], _, _ => []
  | s :: ss, 0, task => { s with m_queue := s.m_queue ++ [task] } :: ss
  | s :: ss, n + 1, task => s :: modifyQueue ss n task

/-- `WorkQueue::add_item`: advance the insertion cursor round-robin and
push the task onto that worker's queue. -/
def add_item {I D O : Type} (wq : WorkQueue I D O) (task : I) : WorkQueue I D O :=
  { wq with
    m_insert_idx := (wq.m_insert_idx + 1) % wq.m_num_threads,
    m_states := modifyQueue wq.m_states ((wq.m_insert_idx + 1) % wq.m_num_threads) task }

/-- A sequence of `add_item` calls, in submission order. -/
def addItems {I D O : Type} (wq : WorkQueue I D O) (tasks : List I) : WorkQueue I D O :=
  tasks.foldl add_item wq

/-- The queue of the worker at position `j` (empty for an out-of-range
index). -/
def nthQueue {I D O : Type} (wq : WorkQueue I D O) (j : Nat) : List I :=
  match wq.m_states[j]? with
  | some s => s.m_queue
  | none => []

/-- The sequence of worker indices that receive the successive tasks of a
sequence of `add_item` calls. -/
def insertTrace {I D O : Type} (wq : WorkQueue I D O) : List I → List Nat
  | [] => []
  | task :: tasks =>
      ((wq.m_insert_idx + 1) % wq.m_num_threads) :: insertTrace (add_item wq task) tasks

/-- `WorkQueue::consume`:
`state->m_result = m_reducer(state->m_result, m_mapper(state, task))`. -/
def consume {I O : Type} (red : O → O → O) (mapper : I → O) (m_result : O) (task : I) : O :=
  red m_result (mapper task)

/-- The worker lambda of `run_all`: starting from the seeded `m_result`,
repeatedly pop a task (own queue first, then steals) and `consume` it; the
argument list is the sequence of tasks this worker popped, in the order it
popped them. -/
def worker_loop {I O : Type} (red : O → O → O) (mapper : I → O) : O → List I → O
  | m_result, [] => m_result
  | m_result, task :: tasks => worker_loop red mapper (consume red mapper m_result task) tasks

/-- `WorkQueue::run_all` after the join: every worker's `m_result` is
seeded with `init_output` and folded over the tasks it consumed, and the
final result folds the reducer over the per-worker results starting again
from `init_output`.  `consumed` lists, per worker, the tasks that worker
consumed in order; the stealing protocol guarantees only that every
submitted task appears in exactly one of these lists. -/
def run_all {I O : Type} (red : O → O → O) (mapper : I → O) (init_output : O)
    (consumed : List (List I)) : O :=
  (consumed.map fun tasks => worker_loop red mapper init_output tasks).foldl red init_output

/-- Model of `workqueue_impl::create_permutation`.  The vector after
`std::iota` and `std::shuffle` is the parameter `shuffled` (an arbitrary
reordering of `0 .. num-1`, since `std::shuffle` permutes the contents);
the final `std::iter_swap` exchanges the front element with the element
found equal to `thread_idx`. -/
def create_permutation (shuffled : List Nat) (thread_idx : Nat) : List Nat :=
  (shuffled.set (shuffled.indexOf thread_idx) (shuffled.headD 0)).set 0 thread_idx

/-- Consing the element stored at position `j` and overwriting that
position is a permutation-preserving exchange. -/
lemma cons_set_perm (r : List Nat) :
    ∀ (j a t : Nat), j < r.length → r[j]? = some t →
      (t :: r.set j a).Perm (a :: r) := by
  induction r with
  | nil =>
    intro j a t h
    exact absurd h (by simp)
  | cons b rs ih =>
    intro j a t h hget
    cases j with
    | zero =>
      have hbt : b = t := by simpa using hget
      subst hbt
      exact List.Perm.swap a b rs
    | succ k =>
      have h' : k < rs.length := by simpa using h
      have hg : rs[k]? = some t := by simpa using hget
      have p1 : (t :: b :: rs.set k a).Perm (b :: t :: rs.set k a) :=
        List.Perm.swap b t (rs.set k a)
      have p3 : (b :: t :: rs.set k a).Perm (b :: a :: rs) := (ih k a t h' hg).cons b
      have p4 : (b :: a :: rs).Perm (a :: b :: rs) := List.Perm.swap a b rs
      exact p1.trans (p3.trans p4)

/-- Swapping the front element with the one at position `i` (holding `t`)
permutes the list. -/
lemma swap_front_perm (l : List Nat) (i t : Nat) (h : i < l.length)
    (hget : l[i]? = some t) : ((l.set i (l.headD 0)).set 0 t).Perm l := by
  cases l with
  | nil => exact absurd h (by simp)
  | cons b rs =>
    cases i with
    | zero =>
      have hbt : b = t := by simpa using hget
      subst hbt
      exact List.Perm.refl _
    | succ k =>
      have h' : k < rs.length := by simpa using h
      have hg : rs[k]? = some t := by simpa using hget
      exact cons_set_perm rs k b t h' hg

/-- Overwriting the front of a non-empty list fixes its head. -/
lemma headD_set_zero {α : Type} (l : List α) (t d : α) (h : l ≠ []) :
    (l.set 0 t).headD d = t := by
  cases l with
  | nil => exact absurd rfl h
  | cons b rs => rfl

/-- Claim C7: for `num ≥ 1` and `thread_idx < num`, `create_permutation`
returns a permutation of the worker indices `0 .. num-1` whose first
element is `thread_idx`, whatever ordering the shuffle produced. -/
theorem create_permutation_spec :
    ∀ (num thread_idx : Nat) (shuffled : List Nat),
      1 ≤ num → thread_idx < num → shuffled.Perm (List.range num) →
      (create_permutation shuffled thread_idx).Perm (List.range num) ∧
      (create_permutation shuffled thread_idx).headD num = thread_idx := by
  intro num t shuffled h1 ht hp
  have hmem : t ∈ shuffled := hp.mem_iff.mpr (List.mem_range.mpr ht)
  have hlt : shuffled.indexOf t < shuffled.length := List.indexOf_lt_length.mpr hmem
  have hget : shuffled[shuffled.indexOf t]? = some t := by
    rw [List.getElem?_eq_getElem hlt]
    exact congrArg some (List.getElem_indexOf hlt)
  have hswap := swap_front_perm shuffled (shuffled.indexOf t) t hlt hget
  refine ⟨hswap.trans hp, ?_⟩
  have hlen : shuffled.length = num := by
    simpa using hp.length_eq
  have hne : shuffled.set (shuffled.indexOf t) (shuffled.headD 0) ≠ [] := by
    apply List.ne_nil_of_length_pos
    rw [List.length_set, hlen]
    omega
  exact headD_set_zero _ t num hne

/-- Witness for C7 at `num = 2`, `thread_idx = 1`, shuffle outcome
`[0, 1]`. -/
theorem create_permutation_spec_witness :
    (create_permutation [0, 1] 1).Perm (List.range 2) ∧
    (create_permutation [0, 1] 1).headD 2 = 1 :=
  create_permutation_spec 2 1 [0, 1] (by decide) (by decide) (by decide)

/-- Claim C8: constructing a `WorkQueue` with `num_threads < 1` fails fast,
and for `num_threads ≥ 1` it creates exactly `num_threads` worker states,
the `i`-th initialized with the data initializer applied to `i`. -/
theorem ctor_spec :
    ∀ (I D O : Type) (mapper : I → O) (reducer : O → O → O)
      (data_initializer : Nat → D) (n : Nat),
      (n < 1 → workQueueCtor mapper reducer data_initializer n = none) ∧
      (1 ≤ n →
        ∃ wq, workQueueCtor mapper reducer data_initializer n = some wq ∧
          wq.m_states.length = n ∧
          ∀ i, i < n → wq.m_states[i]? = some ⟨i, [], data_initializer i⟩) := by
  intro I D O mapper reducer d n
  constructor
  · intro h
    simp [workQueueCtor, h]
  · intro h
    refine ⟨freshWQ mapper reducer d n, ?_, ?_, ?_⟩
    · simp [workQueueCtor, show ¬ n < 1 by omega]
    · simp [freshWQ]
    · intro i hi
      simp [freshWQ, List.getElem?_map, List.getElem?_range, hi]

/-- Witness for C8 at `num_threads = 0` (fails) and `num_threads = 2`
(two worker states, identity data initializer). -/
theorem ctor_spec_witness :
    workQueueCtor (fun n : Nat => n) Nat.add (fun i : Nat => i) 0 = none ∧
    (∃ wq, workQueueCtor (fun n : Nat => n) Nat.add (fun i : Nat => i) 2 = some wq ∧
      wq.m_states.length = 2 ∧
      ∀ i, i < 2 → wq.m_states[i]? = some ⟨i, [], i⟩) :=
  ⟨(ctor_spec Nat Nat Nat _ _ _ 0).1 (by decide),
   (ctor_spec Nat Nat Nat _ _ _ 2).2 (by decide)⟩

/-- `modifyQueue` does not change the number of worker states. -/
lemma modifyQueue_length {I D : Type} :
    ∀ (l : List (WorkerState I D)) (i : Nat) (t : I),
      (modifyQueue l i t).length = l.length := by
  intro l
  induction l with
  | nil => intro i t; cases i <;> rfl
  | cons s ss ih =>
    intro i t
    cases i with
    | zero => rfl
    | succ n => simp [modifyQueue, ih n t]

/-- `modifyQueue` leaves every other worker state unchanged. -/
lemma modifyQueue_getElem?_ne {I D : Type} :
    ∀ (l : List (WorkerState I D)) (i : Nat) (t : I) (j : Nat), j ≠ i →
      (modifyQueue l i t)[j]? = l[j]? := by
  intro l
  induction l with
  | nil => intro i t j hj; cases i <;> rfl
  | cons s ss ih =>
    intro i t j hj
    cases i with
    | zero =>
      cases j with
      | zero => exact absurd rfl hj
      | succ k => simp [modifyQueue]
    | succ n =>
      cases j with
      | zero => simp [modifyQueue]
      | succ k => simpa [modifyQueue] using ih n t k (by omega)

/-- `modifyQueue` appends the task to the back of the selected worker's
queue. -/
lemma modifyQueue_getElem?_eq {I D : Type} :
    ∀ (l : List (WorkerState I D)) (i : Nat) (t : I), i < l.length →
      ∃ s, l[i]? = some s ∧
        (modifyQueue l i t)[i]? = some { s with m_queue := s.m_queue ++ [t] } := by
  intro l
  induction l with
  | nil =>
    intro i t h
    exact absurd h (by simp)
  | cons s ss ih =>
    intro i t h
    cases i with
    | zero => exact ⟨s, by simp, by simp [modifyQueue]⟩
    | succ n =>
      have h' : n < ss.length := by simpa using h
      obtain ⟨s', h1, h2⟩ := ih n t h'
      exact ⟨s', by simpa using h1, by simpa [modifyQueue] using h2⟩

/-- Submitting one more task is a single `add_item` after the earlier
submissions. -/
lemma addItems_append {I D O : Type} (wq : WorkQueue I D O) (ts : List I) (t : I) :
    addItems wq (ts ++ [t]) = add_item (addItems wq ts) t := by
  simp [addItems, List.foldl_append]

/-- `add_item` never changes the thread count. -/
lemma addItems_num_threads {I D O : Type} :
    ∀ (ts : List I) (wq : WorkQueue I D O),
      (addItems wq ts).m_num_threads = wq.m_num_threads := by
  intro ts
  induction ts with
  | nil => intro wq; rfl
  | cons t ts ih =>
    intro wq
    simpa [addItems, add_item] using ih (add_item wq t)

/-- `add_item` never changes the number of worker states. -/
lemma addItems_states_length {I D O : Type} :
    ∀ (ts : List I) (wq : WorkQueue I D O),
      (addItems wq ts).m_states.length = wq.m_states.length := by
  intro ts
  induction ts with
  | nil => intro wq; rfl
  | cons t ts ih =>
    intro wq
    have := ih (add_item wq t)
    simpa [addItems, add_item, modifyQueue_length] using this

/-- After `k` submissions from a fresh queue the insertion cursor sits at
`k % N`. -/
lemma addItems_insert_idx {I D O : Type} (mapper : I → O) (red : O → O → O)
    (d : Nat → D) (N : Nat) :
    ∀ ts : List I,
      (addItems (freshWQ mapper red d N) ts).m_insert_idx = ts.length % N := by
  intro ts
  induction ts using List.reverseRecOn with
  | nil => simp [addItems, freshWQ]
  | append_singleton ts t ih =>
    rw [addItems_append]
    simp only [add_item, addItems_num_threads, ih]
    rw [show (freshWQ mapper red d N : WorkQueue I D O).m_num_threads = N from rfl,
      Nat.mod_add_mod]
    simp

/-- After submitting `ts` from a fresh queue, the queue of worker `j` holds
exactly the tasks whose (zero-based) submission position `k` satisfies
`(k + 1) % N = j`. -/
lemma addItems_queue_length {I D O : Type} (mapper : I → O) (red : O → O → O)
    (d : Nat → D) (N : Nat) (hN : 1 ≤ N) :
    ∀ (ts : List I) (j : Nat), j < N →
      (nthQueue (addItems (freshWQ mapper red d N) ts) j).length =
        ((Finset.range ts.length).filter fun k => (k + 1) % N = j).card := by
  intro ts
  induction ts using List.reverseRecOn with
  | nil =>
    intro j hj
    simp [addItems, nthQueue, freshWQ, List.getElem?_map, List.getElem?_range, hj]
  | append_singleton ts t ih =>
    intro j hj
    rw [addItems_append]
    have hnum : (addItems (freshWQ mapper red d N) ts).m_num_threads = N :=
      addItems_num_threads ts _
    have hidx : (addItems (freshWQ mapper red d N) ts).m_insert_idx = ts.length % N :=
      addItems_insert_idx mapper red d N ts
    have hslen : (addItems (freshWQ mapper red d N) ts).m_states.length = N := by
      rw [addItems_states_length]
      simp [freshWQ]
    have hidx2 :
        ((addItems (freshWQ mapper red d N) ts).m_insert_idx + 1) %
            (addItems (freshWQ mapper red d N) ts).m_num_threads =
          (ts.length + 1) % N := by
      rw [hnum, hidx, Nat.mod_add_mod]
    have hlt : (ts.length + 1) % N < N := Nat.mod_lt _ (by omega)
    rw [List.length_append, List.length_singleton, Finset.range_succ,
      Finset.filter_insert]
    by_cases hcase : (ts.length + 1) % N = j
    · obtain ⟨s, hs1, hs2⟩ :=
        modifyQueue_getElem?_eq (addItems (freshWQ mapper red d N) ts).m_states
          ((ts.length + 1) % N) t (by rw [hslen]; exact hlt)
      have : nthQueue (add_item (addItems (freshWQ mapper red d N) ts) t) j =
          s.m_queue ++ [t] := by
        simp only [nthQueue, add_item, hidx2]
        rw [← hcase] at *
        rw [hs2]
      rw [this, if_pos hcase, Finset.card_insert_of_not_mem (by simp)]
      have hold : nthQueue (addItems (freshWQ mapper red d N) ts) j = s.m_queue := by
        simp only [nthQueue]
        rw [← hcase, hs1]
      have hlen := ih j hj
      rw [hold] at hlen
      simp [hlen]
    · have : nthQueue (add_item (addItems (freshWQ mapper red d N) ts) t) j =
          nthQueue (addItems (freshWQ mapper red d N) ts) j := by
        simp only [nthQueue, add_item, hidx2]
        rw [modifyQueue_getElem?_ne _ _ _ j (fun hcon => hcase hcon.symm)]
      rw [this, if_neg hcase]
      exact ih j hj

/-- At most one out of every `N` consecutive submission positions can fall
on the same worker, so a worker receives at most the ceiling of `K / N`
tasks out of `K`. -/
lemma round_robin_card_le (N j K : Nat) (hN : 1 ≤ N) :
    ((Finset.range K).filter fun k => (k + 1) % N = j).card ≤ (K + N - 1) / N := by
  have := Finset.card_le_card_of_injOn (fun k => k / N)
    (s := (Finset.range K).filter fun k => (k + 1) % N = j)
    (t := Finset.range ((K + N - 1) / N)) ?_ ?_
  · simpa using this
  · intro k hk
    simp only [Finset.mem_filter, Finset.mem_range] at hk
    simp only [Finset.mem_range]
    have hK : 1 ≤ K := by omega
    have h2 : k / N ≤ (K - 1) / N := Nat.div_le_div_right (by omega)
    have h4 : (K - 1) / N + 1 = (K - 1 + N) / N := (Nat.add_div_right _ (by omega)).symm
    rw [show K - 1 + N = K + N - 1 by omega] at h4
    omega
  · intro k1 h1 k2 h2 heq
    simp only [Finset.coe_filter, Set.mem_setOf_eq, Finset.mem_range] at h1 h2
    have hm : (k1 + 1) % N = (k2 + 1) % N := by rw [h1.2, h2.2]
    have hmod : k1 % N = k2 % N := Nat.ModEq.add_right_cancel' 1 hm
    have e1 := Nat.div_add_mod k1 N
    have e2 := Nat.div_add_mod k2 N
    simp only at heq
    rw [heq] at e1
    omega

/-- The worker indices receiving successive submissions advance by one
modulo the thread count. -/
lemma insertTrace_eq {I D O : Type} (N : Nat) :
    ∀ (ts : List I) (wq : WorkQueue I D O), wq.m_num_threads = N →
      insertTrace wq ts =
        (List.range ts.length).map fun k => (wq.m_insert_idx + 1 + k) % N := by
  intro ts
  induction ts with
  | nil => intro wq h; rfl
  | cons t ts ih =>
    intro wq h
    show ((wq.m_insert_idx + 1) % wq.m_num_threads) :: insertTrace (add_item wq t) ts = _
    rw [ih (add_item wq t) (by simp [add_item, h])]
    simp only [List.length_cons]
    rw [List.range_succ_eq_map]
    simp only [List.map_cons, List.map_map]
    refine congrArg₂ (· :: ·) (by rw [h]) ?_
    have hfun : (fun k => ((add_item wq t).m_insert_idx + 1 + k) % N) =
        ((fun k => (wq.m_insert_idx + 1 + k) % N) ∘ Nat.succ) := by
      funext k
      simp only [add_item, h, Function.comp]
      rw [Nat.add_assoc ((wq.m_insert_idx + 1) % N) 1 k, Nat.mod_add_mod]
      congr 1
      omega
    rw [hfun]

/-- Claim C6: submissions from a fresh queue are distributed round-robin:
the `k`-th `add_item` call targets worker `(k + 1) % N` (consecutively
incremented indices modulo `N`), and consequently no worker queue ever
holds more than the ceiling of `k / N` pre-run items. -/
theorem add_item_round_robin :
    ∀ (I D O : Type) (mapper : I → O) (red : O → O → O) (d : Nat → D)
      (N : Nat) (ts : List I), 1 ≤ N →
      insertTrace (freshWQ mapper red d N) ts =
        (List.range ts.length).map (fun k => (k + 1) % N) ∧
      ∀ j, j < N →
        (nthQueue (addItems (freshWQ mapper red d N) ts) j).length ≤
          (ts.length + N - 1) / N := by
  intro I D O mapper red d N ts hN
  constructor
  · have hfun :
        (fun k => ((freshWQ mapper red d N : WorkQueue I D O).m_insert_idx + 1 + k) % N) =
          (fun k => (k + 1) % N) := by
      funext k
      simp [freshWQ, Nat.add_comm]
    rw [insertTrace_eq N ts _ rfl, hfun]
  · intro j hj
    rw [addItems_queue_length mapper red d N hN ts j hj]
    exact round_robin_card_le N j ts.length hN

/-- Witness for C6 at two workers and three submissions. -/
theorem add_item_round_robin_witness :
    insertTrace (freshWQ (fun n : Nat => n) Nat.add (fun _ => 0) 2) [5, 6, 7] =
      (List.range 3).map (fun k => (k + 1) % 2) ∧
    (nthQueue (addItems (freshWQ (fun n : Nat => n) Nat.add (fun _ => 0) 2) [5, 6, 7])
        1).length ≤ (3 + 2 - 1) / 2 :=
  ⟨(add_item_round_robin Nat Nat Nat _ _ _ 2 [5, 6, 7] (by decide)).1,
   (add_item_round_robin Nat Nat Nat _ _ _ 2 [5, 6, 7] (by decide)).2 1 (by decide)⟩

/-- The worker loop is a left fold of `consume` over the tasks it popped,
in pop order. -/
lemma worker_loop_eq_foldl {I O : Type} (red : O → O → O) (mapper : I → O) :
    ∀ (l : List I) (acc : O),
      worker_loop red mapper acc l = l.foldl (consume red mapper) acc := by
  intro l
  induction l with
  | nil => intro acc; rfl
  | cons t ts ih =>
    intro acc
    exact ih (consume red mapper acc t)

/-- With a single worker every submission lands in its queue, in
submission order. -/
lemma addItems_one_state {I D O : Type} :
    ∀ (ts : List I) (wq : WorkQueue I D O) (s : WorkerState I D),
      wq.m_num_threads = 1 → wq.m_states = [s] →
      (addItems wq ts).m_states = [{ s with m_queue := s.m_queue ++ ts }] := by
  intro ts
  induction ts with
  | nil =>
    intro wq s h1 h2
    simp [addItems, h2]
  | cons t ts ih =>
    intro wq s h1 h2
    show (addItems (add_item wq t) ts).m_states = _
    have hnum : (add_item wq t).m_num_threads = 1 := by simp [add_item, h1]
    have hstates : (add_item wq t).m_states = [{ s with m_queue := s.m_queue ++ [t] }] := by
      simp [add_item, h1, h2, modifyQueue, Nat.mod_one]
    rw [ih (add_item wq t) _ hnum hstates]
    simp

/-- Claim C5: `run_all` seeds each worker's accumulator with the initial
output, folds the reducer over the mapper outputs of the tasks the worker
consumes, and after the join folds the reducer over the per-worker
accumulators starting again from the initial output; with one thread the
single worker drains its own queue front-to-back (its steal permutation is
the singleton `[0]`), so the result is the reducer applied to the initial
output and the fold over the submitted tasks in submission order. -/
theorem run_all_single_thread :
    ∀ (I D O : Type) (red : O → O → O) (mapper : I → O) (d : Nat → D)
      (init_output : O) (ts : List I),
      (∀ (acc : O) (l : List I),
        worker_loop red mapper acc l = l.foldl (consume red mapper) acc) ∧
      run_all red mapper init_output
          ((addItems (freshWQ mapper red d 1) ts).m_states.map WorkerState.m_queue) =
        red init_output (ts.foldl (consume red mapper) init_output) := by
  intro I D O red mapper d init ts
  refine ⟨fun acc l => worker_loop_eq_foldl red mapper l acc, ?_⟩
  have hfresh : (freshWQ mapper red d 1 : WorkQueue I D O).m_states = [⟨0, [], d 0⟩] := by
    simp [freshWQ, List.range_succ]
  have hq := addItems_one_state ts (freshWQ mapper red d 1) ⟨0, [], d 0⟩ rfl hfresh
  rw [hq]
  simp only [List.map_cons, List.map_nil, List.nil_append]
  show List.foldl red init [worker_loop red mapper init ts] =
    red init (ts.foldl (consume red mapper) init)
  simp [worker_loop_eq_foldl red mapper ts init]

/-- For an associative reducer with `init` as a two-sided identity,
folding from any seed splits off the seed. -/
lemma foldl_red_eq {O : Type} (red : O → O → O) (init : O)
    (hassoc : ∀ a b c, red (red a b) c = red a (red b c))
    (hidl : ∀ a, red init a = a) (hidr : ∀ a, red a init = a) :
    ∀ (l : List O) (x : O), l.foldl red x = red x (l.foldl red init) := by
  intro l
  induction l with
  | nil => intro x; simp [hidr x]
  | cons o l ih =>
    intro x
    simp only [List.foldl_cons]
    rw [ih (red x o), ih (red init o), hidl o, hassoc]

/-- For an associative reducer with identity `init`, the fold of a
concatenation is the reduction of the two folds. -/
lemma foldl_red_append {O : Type} (red : O → O → O) (init : O)
    (hassoc : ∀ a b c, red (red a b) c = red a (red b c))
    (hidl : ∀ a, red init a = a) (hidr : ∀ a, red a init = a)
    (l1 l2 : List O) :
    (l1 ++ l2).foldl red init = red (l1.foldl red init) (l2.foldl red init) := by
  rw [List.foldl_append, foldl_red_eq red init hassoc hidl hidr l2]

/-- For an associative reducer with identity `init`, folding the per-chunk
folds equals folding the concatenation of the chunks. -/
lemma foldl_red_join {O : Type} (red : O → O → O) (init : O)
    (hassoc : ∀ a b c, red (red a b) c = red a (red b c))
    (hidl : ∀ a, red init a = a) (hidr : ∀ a, red a init = a) :
    ∀ chunks : List (List O),
      (chunks.map fun c => c.foldl red init).foldl red init =
        chunks.flatten.foldl red init := by
  intro chunks
  induction chunks with
  | nil => rfl
  | cons c cs ih =>
    simp only [List.map_cons, List.foldl_cons, List.flatten_cons]
    rw [hidl (c.foldl red init),
      foldl_red_eq red init hassoc hidl hidr (cs.map fun c => c.foldl red init), ih,
      foldl_red_append red init hassoc hidl hidr c cs.flatten]

/-- A worker's accumulated result is the fold of the reducer over its
mapper outputs. -/
lemma worker_loop_map {I O : Type} (red : O → O → O) (mapper : I → O)
    (init : O) (ts : List I) :
    worker_loop red mapper init ts = (ts.map mapper).foldl red init := by
  rw [worker_loop_eq_foldl red mapper ts init]
  exact (List.foldl_map mapper red ts init).symm

/-- Counterexample to claim C4 as stated: with the associative and
commutative reducer `Nat.add` and initial output `1`, one worker and no
tasks, `run_all` returns `2` (the seed is reduced once per worker and once
at the join), which is not the reduction of the empty list of per-task
outputs in any order. -/
theorem run_all_not_plain_reduction :
    run_all Nat.add (fun t : Nat => t) 1 [[]] = 2 ∧
    ¬ ∃ outs : List Nat, outs.Perm (([] : List Nat).map (fun t => t)) ∧
        run_all Nat.add (fun t : Nat => t) 1 [[]] = outs.foldl Nat.add 1 := by
  refine ⟨rfl, ?_⟩
  rintro ⟨outs, hp, he⟩
  have houts : outs = [] := hp.eq_nil
  subst houts
  exact absurd he (by decide)

/-- Claim C4 (amended): for an associative, commutative reducer whose
initial output value is a two-sided identity, the value `run_all` returns
equals the reduction of the per-task mapper outputs in some order, for
every split of the submitted tasks into per-worker consumption
sequences. -/
theorem run_all_reduction_with_identity :
    ∀ (I O : Type) (red : O → O → O) (mapper : I → O) (init_output : O),
      (∀ a b c, red (red a b) c = red a (red b c)) →
      (∀ a b, red a b = red b a) →
      (∀ a, red init_output a = a) →
      (∀ a, red a init_output = a) →
      ∀ (tasks : List I) (consumed : List (List I)),
        consumed.flatten.Perm tasks →
        ∃ outs : List O, outs.Perm (tasks.map mapper) ∧
          run_all red mapper init_output consumed = outs.foldl red init_output := by
  intro I O red mapper init hassoc hcomm hidl hidr tasks consumed hperm
  refine ⟨consumed.flatten.map mapper, hperm.map mapper, ?_⟩
  unfold run_all
  have hmap : (consumed.map fun ts => worker_loop red mapper init ts) =
      (consumed.map fun ts => ts.map mapper).map fun c => c.foldl red init := by
    rw [List.map_map]
    exact List.map_congr_left fun ts _ => worker_loop_map red mapper init ts
  rw [hmap, foldl_red_join red init hassoc hidl hidr]
  exact congrArg (List.foldl red init) (List.map_flatten mapper consumed).symm

/-- Witness for the amended C4 at `Nat.add` with identity `0`, two tasks
split across two workers in reversed order. -/
theorem run_all_reduction_with_identity_witness :
    ∃ outs : List Nat, outs.Perm ([1, 2].map (fun t : Nat => t)) ∧
      run_all Nat.add (fun t : Nat => t) 0 [[2], [1]] = outs.foldl Nat.add 0 :=
  run_all_reduction_with_identity Nat Nat Nat.add (fun t => t) 0
    Nat.add_assoc Nat.add_comm Nat.zero_add Nat.add_zero
    [1, 2] [[2], [1]] (by decide)

end workqueue
